import Mathlib

/-!
Verification of MCServerJS against its specification.

The TypeScript sources are shallowly embedded: JS strings are modelled as
`String` / `List Char`, JS `number | null` exit codes as `Option Int`,
thrown `ServerStateError`s as an `Option String` carrying the error
message, and the event-emitter / file-system side effects as explicit
state records.  Every definition is transliterated from the source files
(`src/server.ts`, `servers/server.ts`, `properties.ts`, `versions.ts`);
the file and line of origin are noted on each definition.
-/

namespace MCServer

/-- `ServerStatus` from `shared.ts`:
`'STOPPED' | 'CRASHED' | 'STARTING' | 'RUNNING' | 'STOPPING'`. -/
inductive ServerStatus
  | STOPPED
  | CRASHED
  | STARTING
  | RUNNING
  | STOPPING
deriving DecidableEq, Repr, Fintype

/-- `LogType` from `shared.ts`: `'ERROR' | 'WARN' | 'INFO'`. -/
inductive LogType
  | ERROR
  | WARN
  | INFO
deriving DecidableEq, Repr

/-- `state.toLocaleLowerCase()` applied to the five status strings
(used by `ServerStateError`'s message in `shared.ts`). -/
def ServerStatus.lower : ServerStatus → String
  | .STOPPED => "stopped"
  | .CRASHED => "crashed"
  | .STARTING => "starting"
  | .RUNNING => "running"
  | .STOPPING => "stopping"

/-- The message built by `ServerStateError`'s constructor in `shared.ts`:
``` `Illegal Action: The server is currently ${state.toLocaleLowerCase()}.` ``` -/
def serverStateErrorMessage (s : ServerStatus) : String :=
  "Illegal Action: The server is currently " ++ s.lower ++ "."

/-- `Server.canStart` (`server.ts`):
`this.state === 'STOPPED' || this.state === 'CRASHED'`. -/
def canStart (s : ServerStatus) : Bool :=
  s = .STOPPED || s = .CRASHED

/-- `Server.canStop` (`server.ts`): `this.state === 'RUNNING'`. -/
def canStop (s : ServerStatus) : Bool :=
  s = .RUNNING

/-- Outcome of one guarded `Server` method call: `threw` is the message of
the `ServerStateError` thrown (or `none` when the guard passed) and
`state` is the server state after the guard ran. -/
structure CallResult where
  threw : Option String
  state : ServerStatus
deriving DecidableEq, Repr

/-- The state-guard phase of `Server.start` (`server.ts`):
`if (!this.canStart) throw new ServerStateError(this.state); this.state = 'STARTING'`.
The `catch` block only logs and rethrows, so a guard failure leaves the
state unchanged. -/
def startCall (s : ServerStatus) : CallResult :=
  if canStart s then ⟨none, .STARTING⟩ else ⟨some (serverStateErrorMessage s), s⟩

/-- `Server.execute` (`server.ts`): throws `ServerStateError(this.state)`
unless `canStop`; on success it only writes to the child's stdin and the
state is untouched. -/
def executeCall (s : ServerStatus) : CallResult :=
  if canStop s then ⟨none, s⟩ else ⟨some (serverStateErrorMessage s), s⟩

/-- `Server.stop` (`server.ts`): same guard as `execute` — throws
`ServerStateError(this.state)` unless `canStop`, otherwise writes
`'stop'` to stdin without touching the state. -/
def stopCall (s : ServerStatus) : CallResult :=
  if canStop s then ⟨none, s⟩ else ⟨some (serverStateErrorMessage s), s⟩

/-- Supervisor state the process-exit handler acts on: the machine state
and whether `this.process` currently holds a child-process handle. -/
structure ProcState where
  state : ServerStatus
  hasProcess : Bool
deriving DecidableEq, Repr

/-- The `process.on('exit', (code, signal) => ...)` handler of
`Server.start` (`server.ts`):
`this.state = code === 0 ? 'STOPPED' : 'CRASHED'; ...; this.process = undefined`.
A `null` exit code (process killed by a signal) is modelled as `none`. -/
def onExit (code : Option Int) (_st : ProcState) : ProcState :=
  { state := if code = some 0 then .STOPPED else .CRASHED
    hasProcess := false }

/-!
### Regular expressions

The log classifier of `Server.start` tests each message against the
static regular expressions `DonePattern`, `StopPattern`, `EulaPattern`,
`WarnPattern` and `ErrorPattern` (`server.ts`).  We embed a small regex
language with Brzozowski-derivative matching and transliterate each
pattern into it.  `RegExp.prototype.test` without anchors is a search, so
`rtest` matches the pattern anywhere inside the string.
-/

/-- Regular expressions over characters; `chr p` matches one character
satisfying `p`. -/
inductive RE
  | empty
  | eps
  | chr (p : Char → Bool)
  | alt (a b : RE)
  | cat (a b : RE)
  | star (a : RE)

namespace RE

/-- Smart alternation (drops `empty` branches to keep derivatives small). -/
def altS : RE → RE → RE
  | .empty, b => b
  | a, .empty => a
  | a, b => .alt a b

/-- Smart concatenation. -/
def catS : RE → RE → RE
  | .empty, _ => .empty
  | _, .empty => .empty
  | .eps, b => b
  | a, .eps => a
  | a, b => .cat a b

/-- Does the regex accept the empty string? -/
def nullable : RE → Bool
  | .empty => false
  | .eps => true
  | .chr _ => false
  | .alt a b => nullable a || nullable b
  | .cat a b => nullable a && nullable b
  | .star _ => true

/-- Brzozowski derivative with respect to one character. -/
def deriv (c : Char) : RE → RE
  | .empty => .empty
  | .eps => .empty
  | .chr p => if p c then .eps else .empty
  | .alt a b => altS (deriv c a) (deriv c b)
  | .cat a b =>
    if nullable a then altS (catS (deriv c a) b) (deriv c b)
    else catS (deriv c a) b
  | .star a => catS (deriv c a) (.star a)

/-- Anchored match: does `r` accept exactly `cs`? -/
def rmatch (r : RE) (cs : List Char) : Bool :=
  nullable (cs.foldl (fun r c => deriv c r) r)

/-- One arbitrary character (`Σ`). -/
def anyChar : RE := .chr fun _ => true

/-- `RegExp.prototype.test` for an unanchored pattern: search for a match
anywhere in the string, i.e. an anchored match of `Σ* r Σ*`. -/
def rtest (r : RE) (s : String) : Bool :=
  rmatch (.cat (.star anyChar) (.cat r (.star anyChar))) s.data

/-- One literal character under the `i` (ignore-case) flag. -/
def chrCI (c : Char) : RE := .chr fun x => x.toLower = c.toLower

/-- A literal string under the `i` flag. -/
def strCI (s : String) : RE :=
  s.data.foldr (fun c r => .cat (chrCI c) r) .eps

/-- `\d`: one decimal digit. -/
def digit : RE := .chr fun c => '0' ≤ c && c ≤ '9'

/-- `r+`. -/
def plus (r : RE) : RE := .cat r (.star r)

/-- `r?`. -/
def opt (r : RE) : RE := .alt .eps r

/-- `[^)]`: any character other than `)` (character classes also match
line terminators). -/
def notRPar : RE := .chr fun c => c ≠ ')'

/-- `.` (no `s` flag): any character except a line terminator. -/
/- line terminators: \n, \r, U+2028, U+2029 -/
def dot : RE := .chr fun c =>
  c ≠ '\n' && c ≠ '\r' && c ≠ '\u2028' && c ≠ '\u2029'

end RE

/-- `\[\d+:\d+:\d+\] \[` followed by `(ServerMain|Server thread)` — the
common prefix of the three semantic patterns in `server.ts`. -/
def timestampThread : RE :=
  .cat (RE.strCI "[") <| .cat (RE.plus RE.digit) <| .cat (RE.strCI ":") <|
  .cat (RE.plus RE.digit) <| .cat (RE.strCI ":") <| .cat (RE.plus RE.digit) <|
  .cat (RE.strCI "] [") (RE.alt (RE.strCI "ServerMain") (RE.strCI "Server thread"))

/-- `Server.DonePattern` (`server.ts`):
`/\[\d+:\d+:\d+\] \[(ServerMain|Server thread)\/INFO\]: Done \([^)]+\)!/i`. -/
def DonePattern : RE :=
  .cat timestampThread <| .cat (RE.strCI "/INFO]: Done (")
    (.cat (RE.plus RE.notRPar) (RE.strCI ")!"))

/-- `Server.StopPattern` (`server.ts`):
`/\[\d+:\d+:\d+\] \[(ServerMain|Server thread)\/INFO\]: Stopping server/i`. -/
def StopPattern : RE :=
  .cat timestampThread (RE.strCI "/INFO]: Stopping server")

/-- `Server.EulaPattern` (`server.ts`): the fixed EULA sentence after the
timestamp/thread prefix; the two dots of `eula.txt` are unescaped in the
source, hence `.` (any non-terminator), and the pattern ends with
`(?:\n|\r\n)?`. -/
def EulaPattern : RE :=
  .cat timestampThread <|
  .cat (RE.strCI "/INFO]: You need to agree to the EULA in order to run the server")
    <| .cat (RE.strCI ". Go to eula") <| .cat RE.dot
    <| .cat (RE.strCI "txt for more info.")
    (RE.opt (RE.alt (RE.strCI "\n") (RE.strCI "\r\n")))

/-- `Server.WarnPattern` (`server.ts`): `/\/WARN\]/i`. -/
def WarnPattern : RE := RE.strCI "/WARN]"

/-- `Server.ErrorPattern` (`server.ts`): `/\/ERROR\]/i`. -/
def ErrorPattern : RE := RE.strCI "/ERROR]"

/-- The severity dispatch of the stdout handler in `Server.start`
(`server.ts`): warn if `WarnPattern` tests true, else error if
`ErrorPattern` tests true, else info. -/
def classifySeverity (message : String) : LogType :=
  if RE.rtest WarnPattern message then .WARN
  else if RE.rtest ErrorPattern message then .ERROR
  else .INFO

/-- The key-message dispatch of the stdout handler in `Server.start`
(`server.ts`): `DonePattern → 'RUNNING'`, else `StopPattern → 'STOPPING'`,
else `EulaPattern → 'STOPPING'`, else the state is untouched. -/
def keyTransition (message : String) (s : ServerStatus) : ServerStatus :=
  if RE.rtest DonePattern message then .RUNNING
  else if RE.rtest StopPattern message then .STOPPING
  else if RE.rtest EulaPattern message then .STOPPING
  else s

/-!
### PropertiesStore (`properties.ts`)

File contents and lines are modelled as `List Char` (JS strings are
sequences of UTF-16 code points; every character used by the claims is in
the BMP).  `loadProperties` splits on `\n` after normalising `\r\n`, so
the per-line matchers below only ever see newline-free lines.

`Properties.PropertyPattern = /^\s*(?!#)(.+)=(.*)$/i` is embedded by
replaying the backtracking search of the JS engine: `\s*` starts greedy
at the whole leading-whitespace run and backtracks one character at a
time; at each start position the lookahead `(?!#)` must hold and the
greedy `(.+)` makes `=` match at the last `=` of the remaining suffix;
`.` never matches a line terminator, so a suffix containing one cannot
match at all.
-/

/-- JS `\s` (the characters relevant here; Unicode spaces beyond ASCII do
not occur in any claim). -/
def isJsWs (c : Char) : Bool :=
  c = ' ' || c = '\t' || c = '\n' || c = '\x0b' || c = '\x0c' || c = '\r'

/-- JS line terminators (not matched by `.`). -/
def isLineTerm (c : Char) : Bool :=
  c = '\n' || c = '\r' || c = '\u2028' || c = '\u2029'

/-- Length of the leading run of `\s` characters — the first (greedy)
attempt of `^\s*`. -/
def wsCount : List Char → Nat
  | [] => 0
  | c :: rest => if isJsWs c then wsCount rest + 1 else 0

/-- Index of the last `=` of a list, if any — where the greedy `(.+)`
leaves the literal `=` of the pattern. -/
def lastIdxOfEq : List Char → Option Nat
  | [] => none
  | c :: rest =>
    match lastIdxOfEq rest with
    | some p => some (p + 1)
    | none => if c = '=' then some 0 else none

/-- One backtracking attempt of `^\s*(?!#)(.+)=(.*)$` with `\s*` matching
exactly `i` characters: the lookahead forbids `#` at position `i`, `(.+)`
and `(.*)` cannot cross a line terminator, and the greedy `(.+)` puts the
`=` at the last `=` at position `≥ i + 1`; the two captures are returned. -/
def propTryAt (s : List Char) (i : Nat) : Option (List Char × List Char) :=
  if (s.drop i).any isLineTerm then none
  else if s[i]? = some '#' then none
  else
    match lastIdxOfEq (s.drop (i + 1)) with
    | none => none
    | some k => some ((s.take (i + 1 + k)).drop i, s.drop (i + 1 + k + 1))

/-- Backtracking over the length matched by `\s*`, from `i` characters
down to none. -/
def propTry (s : List Char) : Nat → Option (List Char × List Char)
  | 0 => propTryAt s 0
  | i + 1 =>
    match propTryAt s (i + 1) with
    | some r => some r
    | none => propTry s i

/-- `line.match(Properties.PropertyPattern)` (`properties.ts`): the two
captures (name, value) of `/^\s*(?!#)(.+)=(.*)$/i`, or `none` when the
line does not match. -/
def propertyMatch (s : List Char) : Option (List Char × List Char) :=
  propTry s (wsCount s)

/-- `Properties.CommentPattern.test(line)` (`properties.ts`):
`/^#.+$/i` — a `#` followed by at least one non-terminator character,
reaching the end of the line. -/
def commentTest : List Char → Bool
  | [] => false
  | c :: rest => c = '#' && !rest.isEmpty && rest.all (fun c => !isLineTerm c)

/-- `PropertyData = IProperty | null | string` (`properties.ts`): a
loaded line is a comment kept verbatim (`str`), a parsed key=value pair
(`prop`), or `null`. -/
inductive PropertyData
  | str (s : List Char)
  | prop (name value : List Char)
  | null
deriving DecidableEq, Repr

/-- `IProperty` (`properties.ts`): `{ name: string; value: string }`. -/
structure IProperty where
  name : List Char
  value : List Char
deriving DecidableEq, Repr

/-- The line classifier inside `Properties.loadProperties`
(`properties.ts`): comment test first, then the property pattern, else
`null`. -/
def loadLine (line : List Char) : PropertyData :=
  if commentTest line then .str line
  else
    match propertyMatch line with
    | some (n, v) => .prop n v
    | none => .null

/-- `content.replace(/\r?\n/gm, '\n')` (`properties.ts`): the regex scans
left to right without overlap, so each `\r\n` collapses to `\n` and a
bare `\n` is untouched. -/
def normalizeNewlines : List Char → List Char
  | [] => []
  | [c] => [c]
  | c :: d :: rest =>
    if c = '\r' ∧ d = '\n' then '\n' :: normalizeNewlines rest
    else c :: normalizeNewlines (d :: rest)

/-- `Properties.loadProperties` (`properties.ts`): normalise line
endings, split on `\n`, classify each line. -/
def loadProperties (content : List Char) : List PropertyData :=
  ((normalizeNewlines content).splitOn '\n').map loadLine

/-- The per-line serialisation inside `Properties.setProperties`
(`properties.ts`): `null` becomes the empty string, a pair becomes
`` `${line.name}=${line.value}` ``, a comment string is written verbatim. -/
def serializeLine : PropertyData → List Char
  | .null => []
  | .str s => s
  | .prop n v => n ++ '=' :: v

/-- The content written by `Properties.setProperties` (`properties.ts`):
the serialised lines joined with `EOL`.  `os.EOL` is modelled as `'\n'`
(the claims compare contents modulo line-ending normalisation). -/
def writeContent (data : List PropertyData) : List Char :=
  List.intercalate ['\n'] (data.map serializeLine)

/-- The in-memory update of `Properties.setProperties` (`properties.ts`):
`this.#data.map(line => { if (!line || typeof line === 'string') return
line; return properties.find(prop => prop.name === line.name) || line })`. -/
def setProperties (properties : List IProperty) (data : List PropertyData) :
    List PropertyData :=
  data.map fun line =>
    match line with
    | .null => .null
    | .str s => .str s
    | .prop n v =>
      match properties.find? (fun p => p.name == n) with
      | some q => .prop q.name q.value
      | none => .prop n v

/-!
### VersionResolver (`versions.ts`)
-/

/-- A version-manifest entry (`IVersionInfo`, `versions.ts`); only the
fields read by the filtered views are modelled (`id` and `type`, the
latter one of `'release' | 'snapshot' | 'old_beta' | 'old_alpha'`). -/
structure VInfo where
  id : String
  type : String
deriving DecidableEq, Repr

/-- The per-version artifact facts stored in `./versions.json`
(`versions.ts`). -/
structure VFacts where
  hasClientMappings : Bool
  hasServer : Bool
  hasServerMappings : Bool
deriving DecidableEq, Repr

/-- `latest` of a version manifest (`versions.ts`). -/
structure VLatest where
  release : String
  snapshot : String
deriving DecidableEq, Repr

/-- `IVersionManifest` (`versions.ts`). -/
structure VManifest where
  latest : VLatest
  versions : List VInfo
deriving DecidableEq, Repr

/-- `Versions.servers` (`versions.ts`), given the base manifest and the
artifact-facts cache returned by `getVersionData` (which has an entry for
every manifest id, fetching any that were missing):
filter the manifest by `hasServer` and recompute `latest` as
`versions.find(v => v.type === 'release')?.id || ''` (and likewise for
`snapshot`) over the filtered list. -/
def servers (manifest : VManifest) (versionData : String → VFacts) : VManifest :=
  let versions := manifest.versions.filter fun info => (versionData info.id).hasServer
  { latest :=
      { release := ((versions.find? fun v => v.type == "release").map VInfo.id).getD ""
        snapshot := ((versions.find? fun v => v.type == "snapshot").map VInfo.id).getD "" }
    versions := versions }

/-- The static memoization state behind the `Versions.manifest` getter
(`versions.ts`): `manifest` is the stored pending promise `#manifest`
(identified by a fetch sequence number) and `fetches` counts the network
requests issued so far. -/
structure ManifestCache where
  manifest : Option Nat
  fetches : Nat
deriving DecidableEq, Repr

/-- The state before any access: `#manifest` unset, no fetch issued. -/
def ManifestCache.init : ManifestCache := ⟨none, 0⟩

/-- One access of the `Versions.manifest` getter (`versions.ts`):
`if (!this.#manifest) this.#manifest = request(...); return this.#manifest`.
When `#manifest` is unset a fetch is issued and its pending promise
stored; the stored promise is always returned.  The getter body is
synchronous, so concurrent callers interleave as a sequence of these
atomic accesses. -/
def manifestGet (st : ManifestCache) : Nat × ManifestCache :=
  match st.manifest with
  | some t => (t, st)
  | none => (st.fetches + 1, ⟨some (st.fetches + 1), st.fetches + 1⟩)

/-- The results and final state of `n` successive accesses of the
`Versions.manifest` getter. -/
def manifestAccesses : Nat → ManifestCache → List Nat × ManifestCache
  | 0, st => ([], st)
  | n + 1, st =>
    let r := manifestGet st
    let rs := manifestAccesses n r.2
    (r.1 :: rs.1, rs.2)

/-!
### `acceptEula` (`servers/server.ts` and the legacy `src/server.ts`)
-/

/-- Result of one `acceptEula(accept)` call: the resulting `eula.txt`
content, whether the call went on to invoke `this.start()`, and the value
it returned (`none` models returning `undefined` or the promise of
`start()` rather than a boolean). -/
structure EulaCall where
  content : List Char
  callsStart : Bool
  returned : Option Bool
deriving DecidableEq, Repr

/-- JS string replace with a string pattern,
`content.replace('eula=false', 'eula=true')`: only the first occurrence
is replaced, scanning left to right. -/
def replaceFirst (pat repl : List Char) : List Char → List Char
  | [] => []
  | c :: rest =>
    if pat.isPrefixOf (c :: rest) then repl ++ (c :: rest).drop pat.length
    else c :: replaceFirst pat repl rest

/-- `` `${accept}` ``: JS stringification of a boolean. -/
def boolStr (b : Bool) : List Char :=
  if b then "true".data else "false".data

/-- Case-insensitive prefix test (for the `i` flag). -/
def ciIsPrefix : List Char → List Char → Bool
  | [], _ => true
  | _ :: _, [] => false
  | p :: ps, c :: cs => (p.toLower = c.toLower) && ciIsPrefix ps cs

/-- `content.replace(/eula=(true|false)/gim, `eula=${accept}`)`
(`servers/server.ts`): global case-insensitive scan replacing every
non-overlapping occurrence of `eula=true` or `eula=false` (the
alternation tries `true` first) with `eula=` followed by the stringified
boolean. -/
def replaceEulaGo (accept : Bool) : Nat → List Char → List Char
  | _, [] => []
  | 0, s => s
  | fuel + 1, c :: rest =>
    if ciIsPrefix "eula=true".data (c :: rest) then
      "eula=".data ++ boolStr accept ++ replaceEulaGo accept fuel (rest.drop 8)
    else if ciIsPrefix "eula=false".data (c :: rest) then
      "eula=".data ++ boolStr accept ++ replaceEulaGo accept fuel (rest.drop 9)
    else c :: replaceEulaGo accept fuel rest

/-- Entry point of the scan: the fuel starts at the string length, an
upper bound on the number of scan steps (every step consumes at least
one character), so the `0` fuel case is never reached. -/
def replaceEulaAll (accept : Bool) (s : List Char) : List Char :=
  replaceEulaGo accept s.length s

/-- `Server.acceptEula` of `servers/server.ts`: rewrite every
`eula=(true|false)` occurrence of `eula.txt` to the given boolean and
return the boolean; `start()` is not invoked. -/
def acceptEula (accept : Bool) (content : List Char) : EulaCall :=
  ⟨replaceEulaAll accept content, false, some accept⟩

/-- `Server.acceptEula` of the legacy `src/server.ts`:
`if (!accept) return` — an `accept=false` call touches neither the file
nor the state and returns `undefined`; an `accept=true` call replaces the
first `'eula=false'` with `'eula=true'` and returns `this.start()`. -/
def acceptEulaLegacy (accept : Bool) (content : List Char) : EulaCall :=
  if accept then
    ⟨replaceFirst "eula=false".data "eula=true".data content, true, none⟩
  else ⟨content, false, none⟩

/-- Case-insensitive equality of two character lists — how the `i` flag
compares a matched slice of the content against a pattern alternative. -/
def ciEqList (a b : List Char) : Prop :=
  a.map Char.toLower = b.map Char.toLower

instance ciEqList.instDecidable (a b : List Char) : Decidable (ciEqList a b) :=
  inferInstanceAs (Decidable (a.map Char.toLower = b.map Char.toLower))

/-- Does one of the two alternatives of `/eula=(true|false)/i` match at
the head of the remaining content?  This is exactly the test the scan in
`replaceEulaGo` performs at each position. -/
def eulaMatchHere (s : List Char) : Bool :=
  ciIsPrefix "eula=true".data s || ciIsPrefix "eula=false".data s

/-- A decomposition of file content as the left-to-right non-overlapping
scan of `/eula=(true|false)/gim` sees it, paired with the rewritten
output: at a position where neither alternative matches
(`eulaMatchHere` is false) the character is kept verbatim; where a
complete case-insensitive occurrence of `eula=true` or `eula=false`
stands, the output carries `eula=` followed by the stringified boolean
instead, and the scan resumes after the occurrence. -/
inductive EulaRewrites (accept : Bool) : List Char → List Char → Prop
  | nil : EulaRewrites accept [] []
  | keep {c : Char} {s r : List Char} (h : eulaMatchHere (c :: s) = false)
      (hr : EulaRewrites accept s r) : EulaRewrites accept (c :: s) (c :: r)
  | occ {o s r : List Char}
      (ho : ciEqList o "eula=true".data ∨ ciEqList o "eula=false".data)
      (hr : EulaRewrites accept s r) :
      EulaRewrites accept (o ++ s) ("eula=".data ++ boolStr accept ++ r)

/-- The fixed log line of the spec's classifier test. -/
def doneLine : String :=
  "[12:34:56] [Server thread/INFO]: Done (3.2s)! For help, type..."

/-!
## Theorems

### Regex metatheory

A declarative matching relation for `RE`, and the completeness of the
derivative matcher with respect to it — used to turn "the message
contains the substring" facts into `RegExp.test` results.
-/

namespace RE

/-- Declarative semantics of the regex language. -/
inductive Matches : RE → List Char → Prop
  | eps : Matches .eps []
  | chr {p : Char → Bool} {c : Char} (h : p c = true) : Matches (.chr p) [c]
  | altL {a b : RE} {cs : List Char} (h : Matches a cs) : Matches (.alt a b) cs
  | altR {a b : RE} {cs : List Char} (h : Matches b cs) : Matches (.alt a b) cs
  | catM {a b : RE} {cs ds : List Char} (ha : Matches a cs) (hb : Matches b ds) :
      Matches (.cat a b) (cs ++ ds)
  | starNil {a : RE} : Matches (.star a) []
  | starCons {a : RE} {cs ds : List Char} (ha : Matches a cs)
      (hs : Matches (.star a) ds) : Matches (.star a) (cs ++ ds)

theorem not_matches_empty {cs : List Char} : ¬ Matches .empty cs := by
  intro h; cases h

theorem matches_empty_iff {cs : List Char} : Matches .empty cs ↔ False :=
  iff_false_intro not_matches_empty

theorem matches_eps_iff {cs : List Char} : Matches .eps cs ↔ cs = [] := by
  constructor
  · intro h; cases h; rfl
  · rintro rfl; exact .eps

theorem matches_alt_iff {a b : RE} {cs : List Char} :
    Matches (.alt a b) cs ↔ Matches a cs ∨ Matches b cs := by
  constructor
  · intro h
    cases h with
    | altL h => exact Or.inl h
    | altR h => exact Or.inr h
  · rintro (h | h)
    · exact .altL h
    · exact .altR h

theorem matches_cat_iff {a b : RE} {cs : List Char} :
    Matches (.cat a b) cs ↔
      ∃ xs ys, cs = xs ++ ys ∧ Matches a xs ∧ Matches b ys := by
  constructor
  · intro h
    cases h with
    | catM ha hb => exact ⟨_, _, rfl, ha, hb⟩
  · rintro ⟨xs, ys, rfl, ha, hb⟩
    exact .catM ha hb

theorem matches_altS {a b : RE} {cs : List Char} :
    Matches (altS a b) cs ↔ Matches a cs ∨ Matches b cs := by
  cases a <;> cases b <;>
    simp [altS, matches_alt_iff, matches_empty_iff]

theorem matches_cat_empty_left {b : RE} {cs : List Char} :
    Matches (.cat .empty b) cs ↔ False := by
  simp [matches_cat_iff, matches_empty_iff]

theorem matches_cat_empty_right {a : RE} {cs : List Char} :
    Matches (.cat a .empty) cs ↔ False := by
  simp [matches_cat_iff, matches_empty_iff]

theorem matches_cat_eps_left {b : RE} {cs : List Char} :
    Matches (.cat .eps b) cs ↔ Matches b cs := by
  constructor
  · intro h
    rcases matches_cat_iff.mp h with ⟨xs, ys, rfl, hx, hy⟩
    rcases matches_eps_iff.mp hx with rfl
    simpa using hy
  · intro h
    exact matches_cat_iff.mpr ⟨[], cs, rfl, .eps, h⟩

theorem matches_cat_eps_right {a : RE} {cs : List Char} :
    Matches (.cat a .eps) cs ↔ Matches a cs := by
  constructor
  · intro h
    rcases matches_cat_iff.mp h with ⟨xs, ys, rfl, hx, hy⟩
    rcases matches_eps_iff.mp hy with rfl
    simpa using hx
  · intro h
    exact matches_cat_iff.mpr ⟨cs, [], (List.append_nil cs).symm, h, .eps⟩

theorem matches_catS {a b : RE} {cs : List Char} :
    Matches (catS a b) cs ↔ Matches (.cat a b) cs := by
  cases a <;> cases b <;>
    simp [catS, matches_empty_iff, matches_cat_empty_left,
      matches_cat_empty_right, matches_cat_eps_left, matches_cat_eps_right]

theorem nullable_complete {r : RE} {cs : List Char} (h : Matches r cs)
    (hnil : cs = []) : nullable r = true := by
  induction h with
  | eps => rfl
  | chr _ => simp at hnil
  | altL _ ih => simp [nullable, ih hnil]
  | altR _ ih => simp [nullable, ih hnil]
  | catM _ _ iha ihb =>
    obtain ⟨h1, h2⟩ := List.append_eq_nil.mp hnil
    simp [nullable, iha h1, ihb h2]
  | starNil => rfl
  | starCons => rfl

theorem star_inversion {r : RE} {xs : List Char} (h : Matches r xs) :
    ∀ a : RE, r = .star a → xs ≠ [] →
      ∃ ys zs, xs = ys ++ zs ∧ ys ≠ [] ∧ Matches a ys ∧ Matches (.star a) zs := by
  induction h with
  | eps => intro a hr; cases hr
  | chr _ => intro a hr; cases hr
  | altL _ _ => intro a hr; cases hr
  | altR _ _ => intro a hr; cases hr
  | catM _ _ _ _ => intro a hr; cases hr
  | starNil => intro a _ hne; exact absurd rfl hne
  | @starCons a0 cs ds ha hs iha ih =>
    intro a hr hne
    injection hr with h
    subst h
    by_cases hcs : cs = []
    · rw [hcs, List.nil_append] at hne ⊢
      exact ih _ rfl hne
    · exact ⟨cs, ds, rfl, hcs, ha, hs⟩

theorem matches_deriv {r : RE} {c : Char} {cs : List Char}
    (h : Matches r (c :: cs)) : Matches (deriv c r) cs := by
  induction r generalizing cs with
  | empty => exact absurd h not_matches_empty
  | eps => simp [matches_eps_iff] at h
  | chr p =>
    cases h with
    | chr hp => simpa [deriv, hp] using Matches.eps
  | alt a b iha ihb =>
    rw [deriv, matches_altS]
    cases h with
    | altL h => exact Or.inl (iha h)
    | altR h => exact Or.inr (ihb h)
  | cat a b iha ihb =>
    rcases matches_cat_iff.mp h with ⟨xs, ys, hxy, hx, hy⟩
    rw [deriv]
    cases xs with
    | nil =>
      rw [List.nil_append] at hxy
      subst hxy
      rw [nullable_complete hx rfl, if_pos rfl, matches_altS]
      exact Or.inr (ihb hy)
    | cons x xs =>
      rw [List.cons_append] at hxy
      injection hxy with h1 h2
      subst h1
      subst h2
      have hcat : Matches (catS (deriv c a) b) (xs ++ ys) :=
        matches_catS.mpr (.catM (iha hx) hy)
      cases hn : nullable a with
      | true => rw [if_pos rfl, matches_altS]; exact Or.inl hcat
      | false => rw [if_neg (by simp)]; exact hcat
  | star a iha =>
    rcases star_inversion h a rfl (by simp) with ⟨ys, zs, hxy, hne, hy, hz⟩
    cases ys with
    | nil => exact absurd rfl hne
    | cons y ys =>
      rw [List.cons_append] at hxy
      injection hxy with h1 h2
      subst h1
      subst h2
      rw [deriv]
      exact matches_catS.mpr (.catM (iha hy) hz)

/-- Completeness of the derivative matcher: every declaratively matching
string is accepted. -/
theorem rmatch_complete {r : RE} {cs : List Char} (h : Matches r cs) :
    rmatch r cs = true := by
  induction cs generalizing r with
  | nil => exact nullable_complete h rfl
  | cons c cs ih => exact ih (matches_deriv h)

theorem matches_anyChar_star (cs : List Char) : Matches (.star anyChar) cs := by
  induction cs with
  | nil => exact .starNil
  | cons c cs ih =>
    exact (Matches.starCons (.chr (p := fun _ => true) rfl) ih : Matches _ ([c] ++ cs))

theorem matches_chrCI (c : Char) : Matches (chrCI c) [c] := by
  unfold chrCI
  exact .chr (by simp)

theorem matches_strCI_self (w : String) : Matches (strCI w) w.data := by
  rw [strCI]
  induction w.data with
  | nil => exact .eps
  | cons c l ih =>
    rw [List.foldr_cons]
    exact (Matches.catM (matches_chrCI c) ih : Matches _ ([c] ++ l))

/-- If the literal text of a case-insensitive literal pattern occurs
verbatim inside a string, `RegExp.prototype.test` reports a match. -/
theorem rtest_of_infix {w s : String} (h : w.data <:+: s.data) :
    rtest (strCI w) s = true := by
  rcases h with ⟨x, y, hxy⟩
  unfold rtest
  apply rmatch_complete
  rw [← hxy, List.append_assoc]
  exact .catM (matches_anyChar_star x)
    (.catM (matches_strCI_self w) (matches_anyChar_star y))

end RE

/-!
### Claim theorems: state machine
-/

/-- C1: `start()` succeeds (no `ServerStateError`) exactly in the states
`STOPPED` and `CRASHED`, and `execute(command)` / `stop()` exactly in
`RUNNING`; in every other state the call throws a `ServerStateError`
whose message names the current state (the message determines the state
uniquely) and leaves the state unchanged. -/
theorem stateGuards_legal (s : ServerStatus) :
    ((startCall s).threw = none ↔ (s = .STOPPED ∨ s = .CRASHED)) ∧
    ((executeCall s).threw = none ↔ s = .RUNNING) ∧
    ((stopCall s).threw = none ↔ s = .RUNNING) ∧
    (¬(s = .STOPPED ∨ s = .CRASHED) →
      startCall s = ⟨some (serverStateErrorMessage s), s⟩) ∧
    (s ≠ .RUNNING →
      executeCall s = ⟨some (serverStateErrorMessage s), s⟩ ∧
      stopCall s = ⟨some (serverStateErrorMessage s), s⟩) ∧
    (∀ s' : ServerStatus, serverStateErrorMessage s = serverStateErrorMessage s' → s = s') := by
  cases s <;> decide

/-- Witness for C1 at concrete states: `start()` in `RUNNING` and
`execute()`/`stop()` in `STOPPED` throw and leave the state unchanged. -/
theorem stateGuards_legal_witness :
    startCall .RUNNING = ⟨some (serverStateErrorMessage .RUNNING), .RUNNING⟩ ∧
    executeCall .STOPPED = ⟨some (serverStateErrorMessage .STOPPED), .STOPPED⟩ ∧
    stopCall .STOPPED = ⟨some (serverStateErrorMessage .STOPPED), .STOPPED⟩ :=
  ⟨(stateGuards_legal .RUNNING).2.2.2.1 (by decide),
   ((stateGuards_legal .STOPPED).2.2.2.2.1 (by decide)).1,
   ((stateGuards_legal .STOPPED).2.2.2.2.1 (by decide)).2⟩

/-- C2: the exit handler maps exit code `0` to `STOPPED` and any non-zero
code or a signal kill (`null` code) to `CRASHED`, clearing the stored
process handle in every case. -/
theorem exitHandler_spec (st : ProcState) :
    onExit (some 0) st = ⟨.STOPPED, false⟩ ∧
    (∀ c : Int, c ≠ 0 → onExit (some c) st = ⟨.CRASHED, false⟩) ∧
    onExit none st = ⟨.CRASHED, false⟩ := by
  refine ⟨rfl, ?_, rfl⟩
  intro c hc
  simp [onExit, hc]

/-- Witness for C2: exit code 137 (killed) crashes and clears the handle. -/
theorem exitHandler_spec_witness :
    onExit (some 137) ⟨.RUNNING, true⟩ = ⟨.CRASHED, false⟩ :=
  (exitHandler_spec ⟨.RUNNING, true⟩).2.1 137 (by decide)

/-!
### Claim theorems: log classification
-/

/-- C3: the fixed line
`"[12:34:56] [Server thread/INFO]: Done (3.2s)! For help, type..."`
matches neither the warn nor the error pattern (severity `INFO`), matches
the done pattern, and therefore drives the state to `RUNNING` from any
state. -/
theorem doneLine_classified :
    classifySeverity doneLine = .INFO ∧
    RE.rtest WarnPattern doneLine = false ∧
    RE.rtest ErrorPattern doneLine = false ∧
    RE.rtest DonePattern doneLine = true ∧
    ∀ s : ServerStatus, keyTransition doneLine s = .RUNNING := by
  have hwarn : RE.rtest WarnPattern doneLine = false := by decide
  have herr : RE.rtest ErrorPattern doneLine = false := by decide
  have hdone : RE.rtest DonePattern doneLine = true := by decide
  refine ⟨?_, hwarn, herr, hdone, ?_⟩
  · simp [classifySeverity, hwarn, herr]
  · intro s
    simp [keyTransition, hdone]

/-- C10: any record containing both `/WARN]` and `/ERROR]` is classified
`WARN`, because the warn pattern is tested before the error pattern. -/
theorem warn_precedes_error (message : String)
    (hw : "/WARN]".data <:+: message.data)
    (_he : "/ERROR]".data <:+: message.data) :
    classifySeverity message = .WARN := by
  have : RE.rtest WarnPattern message = true := RE.rtest_of_infix hw
  simp [classifySeverity, this]

/-- Witness for C10: a concrete record carrying both markers is `WARN`. -/
theorem warn_precedes_error_witness :
    classifySeverity "[a/WARN] then [b/ERROR] too" = .WARN :=
  warn_precedes_error "[a/WARN] then [b/ERROR] too" (by decide) (by decide)

/-!
### Claim theorems: version resolver
-/

/-- C8: starting from the unset cache, any positive number of accesses of
the `Versions.manifest` getter issues exactly one fetch, and every access
returns the one stored pending result. -/
theorem manifest_fetched_once (n : Nat) :
    (manifestAccesses (n + 1) ManifestCache.init).2.fetches = 1 ∧
    (manifestAccesses (n + 1) ManifestCache.init).1 = List.replicate (n + 1) 1 := by
  have hstable : ∀ (m : Nat) (t c : Nat),
      manifestAccesses m ⟨some t, c⟩ = (List.replicate m t, ⟨some t, c⟩) := by
    intro m
    induction m with
    | zero => intro t c; rfl
    | succ m ih =>
      intro t c
      simp [manifestAccesses, manifestGet, ih, List.replicate_succ]
  have h1 : manifestGet ManifestCache.init = (1, ⟨some 1, 1⟩) := rfl
  simp [manifestAccesses, h1, hstable, List.replicate_succ]

/-- C9: the `servers` view contains exactly the manifest entries whose
cached facts say `hasServer`, and its `latest.release` is the id of the
first retained entry of type `release` (the empty string when there is
none). -/
theorem servers_view_spec (m : VManifest) (facts : String → VFacts) :
    (∀ info ∈ m.versions, (facts info.id).hasServer = false →
      info ∉ (servers m facts).versions) ∧
    (∀ info ∈ m.versions, (facts info.id).hasServer = true →
      info ∈ (servers m facts).versions) ∧
    (∀ v : VInfo,
      ((servers m facts).versions.find? fun v0 => v0.type == "release") = some v →
        (servers m facts).latest.release = v.id) ∧
    (((servers m facts).versions.find? fun v0 => v0.type == "release") = none →
      (servers m facts).latest.release = "") := by
  refine ⟨?_, ?_, ?_, ?_⟩
  · intro info hmem hns hin
    rw [servers, List.mem_filter] at hin
    rw [hns] at hin
    exact absurd hin.2 (by simp)
  · intro info hmem hs
    rw [servers, List.mem_filter]
    exact ⟨hmem, by rw [hs]⟩
  · intro v hfind
    rw [servers] at hfind ⊢
    simp only at hfind ⊢
    rw [hfind]
    rfl
  · intro hfind
    rw [servers] at hfind ⊢
    simp only at hfind ⊢
    rw [hfind]
    rfl

/-- Witness for C9 on the spec's example: `"1.20"` without a server
artifact is excluded; with every other version having one, the first
retained release (`"1.20.1"`) becomes `latest.release`. -/
theorem servers_view_spec_witness :
    (⟨"1.20", "release"⟩ : VInfo) ∉
      (servers ⟨⟨"", ""⟩, [⟨"1.20.1", "release"⟩, ⟨"1.20", "release"⟩]⟩
        (fun id => if id = "1.20" then ⟨false, false, false⟩ else ⟨true, true, true⟩)).versions ∧
    (⟨"1.20.1", "release"⟩ : VInfo) ∈
      (servers ⟨⟨"", ""⟩, [⟨"1.20.1", "release"⟩, ⟨"1.20", "release"⟩]⟩
        (fun id => if id = "1.20" then ⟨false, false, false⟩ else ⟨true, true, true⟩)).versions ∧
    (servers ⟨⟨"", ""⟩, [⟨"1.20.1", "release"⟩, ⟨"1.20", "release"⟩]⟩
        (fun id => if id = "1.20" then ⟨false, false, false⟩ else ⟨true, true, true⟩)).latest.release
      = "1.20.1" :=
  ⟨(servers_view_spec ⟨⟨"", ""⟩, [⟨"1.20.1", "release"⟩, ⟨"1.20", "release"⟩]⟩
      (fun id => if id = "1.20" then ⟨false, false, false⟩ else ⟨true, true, true⟩)).1
      ⟨"1.20", "release"⟩ (by decide) (by decide),
   (servers_view_spec ⟨⟨"", ""⟩, [⟨"1.20.1", "release"⟩, ⟨"1.20", "release"⟩]⟩
      (fun id => if id = "1.20" then ⟨false, false, false⟩ else ⟨true, true, true⟩)).2.1
      ⟨"1.20.1", "release"⟩ (by decide) (by decide),
   (servers_view_spec ⟨⟨"", ""⟩, [⟨"1.20.1", "release"⟩, ⟨"1.20", "release"⟩]⟩
      (fun id => if id = "1.20" then ⟨false, false, false⟩ else ⟨true, true, true⟩)).2.2.1
      ⟨"1.20.1", "release"⟩ (by decide)⟩

/-!
### Claim theorems: EULA acceptance
-/

/-- C4 counterexample (the legacy `src/server.ts` `acceptEula`): with
`accept=true` it goes on to call `this.start()`, and with `accept=false`
it neither rewrites the `eula=` line to `false` nor returns the boolean. -/
theorem acceptEula_legacy_counterexample :
    (acceptEulaLegacy true "eula=false".data).callsStart = true ∧
    acceptEulaLegacy false "eula=true".data =
      ⟨"eula=true".data, false, none⟩ := by
  decide

/-- One scan step of `replaceEulaGo`, by definitional unfolding. -/
theorem replaceEulaGo_cons (accept : Bool) (f : Nat) (c : Char) (rest : List Char) :
    replaceEulaGo accept (f + 1) (c :: rest) =
      if ciIsPrefix "eula=true".data (c :: rest) then
        "eula=".data ++ boolStr accept ++ replaceEulaGo accept f (rest.drop 8)
      else if ciIsPrefix "eula=false".data (c :: rest) then
        "eula=".data ++ boolStr accept ++ replaceEulaGo accept f (rest.drop 9)
      else c :: replaceEulaGo accept f rest := rfl

/-- The fuel of `replaceEulaGo` is irrelevant as long as it bounds the
string length (each scan step consumes at least one character). -/
theorem replaceEulaGo_fuel (accept : Bool) :
    ∀ (fuel : Nat) (s : List Char) (fuel' : Nat),
      s.length ≤ fuel → s.length ≤ fuel' →
      replaceEulaGo accept fuel s = replaceEulaGo accept fuel' s := by
  intro fuel
  induction fuel with
  | zero =>
    intro s fuel' h _
    have hs : s = [] := List.length_eq_zero.mp (Nat.le_zero.mp h)
    subst hs
    cases fuel' <;> rfl
  | succ f ih =>
    intro s fuel' h h'
    cases s with
    | nil => cases fuel' <;> rfl
    | cons c rest =>
      cases fuel' with
      | zero =>
        rw [List.length_cons] at h'
        omega
      | succ f' =>
        rw [List.length_cons] at h h'
        rw [replaceEulaGo_cons, replaceEulaGo_cons]
        split_ifs with h9 h10
        · rw [ih (rest.drop 8) f' (by rw [List.length_drop]; omega)
            (by rw [List.length_drop]; omega)]
        · rw [ih (rest.drop 9) f' (by rw [List.length_drop]; omega)
            (by rw [List.length_drop]; omega)]
        · rw [ih rest f' (by omega) (by omega)]

theorem isPrefixOf_self_append (x y : List Char) : x.isPrefixOf (x ++ y) = true := by
  induction x with
  | nil => simp [List.isPrefixOf]
  | cons c x' ih => simp [List.isPrefixOf_cons₂, ih]

theorem isPrefixOf_append_false : ∀ {a b : List Char} (y : List Char),
    a.length ≤ b.length → a.isPrefixOf b = false →
    a.isPrefixOf (b ++ y) = false := by
  intro a
  induction a with
  | nil =>
    intro b y _ hfalse
    simp [List.isPrefixOf] at hfalse
  | cons c a' ih =>
    intro b y hlen hfalse
    cases b with
    | nil =>
      rw [List.length_cons] at hlen
      simp at hlen
    | cons d b' =>
      rw [List.isPrefixOf_cons₂] at hfalse
      rw [List.cons_append, List.isPrefixOf_cons₂]
      rcases Bool.and_eq_false_iff.mp hfalse with hcd | hrest
      · rw [hcd, Bool.false_and]
      · rw [List.length_cons, List.length_cons] at hlen
        rw [ih y (by omega) hrest, Bool.and_false]

/-- `ciIsPrefix` is ordinary prefix testing on the lower-cased lists. -/
theorem ciIsPrefix_eq_isPrefixOf : ∀ (p s : List Char),
    ciIsPrefix p s = (p.map Char.toLower).isPrefixOf (s.map Char.toLower) := by
  intro p
  induction p with
  | nil => intro s; simp [ciIsPrefix, List.isPrefixOf]
  | cons c p' ih =>
    intro s
    cases s with
    | nil => rfl
    | cons d s' =>
      rw [ciIsPrefix, List.map_cons, List.map_cons, List.isPrefixOf_cons₂, ih s']
      by_cases hcd : c.toLower = d.toLower <;> simp [hcd]

/-- A slice that is a case-variant of a pattern alternative makes that
alternative match at the head of the remaining content. -/
theorem ciIsPrefix_of_ciEq {o w : List Char} (h : ciEqList o w) (s : List Char) :
    ciIsPrefix w (o ++ s) = true := by
  rw [ciIsPrefix_eq_isPrefixOf, List.map_append, ← h]
  exact isPrefixOf_self_append _ _

/-- A case-variant of `eula=false` never matches the `eula=true`
alternative (they differ case-insensitively at the sixth character). -/
theorem ciIsPrefix_true_variant_false {o : List Char}
    (h : ciEqList o "eula=false".data) (s : List Char) :
    ciIsPrefix "eula=true".data (o ++ s) = false := by
  rw [ciIsPrefix_eq_isPrefixOf, List.map_append, h]
  exact isPrefixOf_append_false _ (by decide) (by decide)

theorem ciEqList_length {o w : List Char} (h : ciEqList o w) :
    o.length = w.length := by
  have := congrArg List.length h
  simpa using this

/-- Soundness of the scan against the decomposition relation: on any
content decomposed into non-matching positions and complete
case-insensitive occurrences, the replace rewrites exactly the
occurrences and keeps every other character. -/
theorem replaceEulaAll_rewrites {accept : Bool} :
    ∀ {content result : List Char}, EulaRewrites accept content result →
      replaceEulaAll accept content = result := by
  intro content result h
  induction h with
  | nil => rfl
  | @keep c s r hm hr ih =>
    unfold eulaMatchHere at hm
    obtain ⟨h9, h10⟩ := Bool.or_eq_false_iff.mp hm
    unfold replaceEulaAll
    rw [List.length_cons, replaceEulaGo_cons,
      if_neg (by simp [h9]), if_neg (by simp [h10])]
    exact congrArg (c :: ·) ih
  | @occ o s r ho hr ih =>
    rcases ho with hT | hF
    · have hlen : o.length = 9 := (ciEqList_length hT).trans (by decide)
      cases o with
      | nil => simp at hlen
      | cons oc o' =>
        have hlen' : o'.length = 8 := by
          rw [List.length_cons] at hlen
          omega
        have htest : ciIsPrefix "eula=true".data (oc :: (o' ++ s)) = true := by
          rw [← List.cons_append]
          exact ciIsPrefix_of_ciEq hT s
        have hdrop : (o' ++ s).drop 8 = s := by
          rw [← hlen']
          exact List.drop_left o' s
        have hfuel : replaceEulaGo accept (o' ++ s).length s =
            replaceEulaGo accept s.length s :=
          replaceEulaGo_fuel accept (o' ++ s).length s s.length
            (by rw [List.length_append]; omega) (le_refl _)
        unfold replaceEulaAll
        rw [List.cons_append, List.length_cons, replaceEulaGo_cons,
          if_pos htest, hdrop, hfuel]
        exact congrArg (fun t => "eula=".data ++ (boolStr accept ++ t)) ih
    · have hlen : o.length = 10 := (ciEqList_length hF).trans (by decide)
      cases o with
      | nil => simp at hlen
      | cons oc o' =>
        have hlen' : o'.length = 9 := by
          rw [List.length_cons] at hlen
          omega
        have h9 : ciIsPrefix "eula=true".data (oc :: (o' ++ s)) = false := by
          rw [← List.cons_append]
          exact ciIsPrefix_true_variant_false hF s
        have h10 : ciIsPrefix "eula=false".data (oc :: (o' ++ s)) = true := by
          rw [← List.cons_append]
          exact ciIsPrefix_of_ciEq hF s
        have hdrop : (o' ++ s).drop 9 = s := by
          rw [← hlen']
          exact List.drop_left o' s
        have hfuel : replaceEulaGo accept (o' ++ s).length s =
            replaceEulaGo accept s.length s :=
          replaceEulaGo_fuel accept (o' ++ s).length s s.length
            (by rw [List.length_append]; omega) (le_refl _)
        unfold replaceEulaAll
        rw [List.cons_append, List.length_cons, replaceEulaGo_cons,
          if_neg (by simp [h9]), if_pos h10, hdrop, hfuel]
        exact congrArg (fun t => "eula=".data ++ (boolStr accept ++ t)) ih

/-- C4 (amended, `servers/server.ts`): for any file content, decomposed
as the global case-insensitive left-to-right scan of
`/eula=(true|false)/gim` sees it, `acceptEula(accept)` rewrites every
(non-overlapping) occurrence of `eula=true` / `eula=false` — in any
letter case — to `eula=` followed by the given boolean, keeps every
other character unchanged, returns that same boolean, and does not call
`start()`. -/
theorem acceptEula_spec (accept : Bool) (content result : List Char)
    (h : EulaRewrites accept content result) :
    acceptEula accept content = ⟨result, false, some accept⟩ := by
  unfold acceptEula
  rw [replaceEulaAll_rewrites h]

/-- Witness for C4: a content carrying two occurrences in different
letter cases amid other text; both are rewritten to `eula=false`, the
surrounding text survives, no `start()` call is made and the boolean is
returned. -/
theorem acceptEula_spec_witness :
    acceptEula false "a eula=true b EULA=FALSE c".data =
      ⟨"a eula=false b eula=false c".data, false, some false⟩ := by
  refine acceptEula_spec false _ _ ?_
  refine .keep (by decide) ?_
  refine .keep (by decide) ?_
  refine @EulaRewrites.occ false "eula=true".data _ _ (Or.inl (by decide)) ?_
  refine .keep (by decide) ?_
  refine .keep (by decide) ?_
  refine .keep (by decide) ?_
  refine @EulaRewrites.occ false "EULA=FALSE".data _ _ (Or.inr (by decide)) ?_
  refine .keep (by decide) ?_
  refine .keep (by decide) ?_
  exact .nil

/-!
### PropertiesStore lemmas
-/

theorem lastIdxOfEq_get : ∀ {s : List Char} {p : Nat},
    lastIdxOfEq s = some p → s[p]? = some '=' := by
  intro s
  induction s with
  | nil => intro p h; simp [lastIdxOfEq] at h
  | cons c rest ih =>
    intro p h
    rw [lastIdxOfEq] at h
    cases hrest : lastIdxOfEq rest with
    | some q =>
      rw [hrest] at h
      injection h with h
      subst h
      simpa using ih hrest
    | none =>
      rw [hrest] at h
      by_cases hc : c = '='
      · rw [if_pos hc] at h
        injection h with h
        subst h
        simpa using hc
      · rw [if_neg hc] at h
        exact absurd h (by simp)

theorem lastIdxOfEq_none : ∀ {s : List Char},
    lastIdxOfEq s = none → ∀ c ∈ s, c ≠ '=' := by
  intro s
  induction s with
  | nil => intro _ c hc; simp at hc
  | cons c rest ih =>
    intro h d hd
    rw [lastIdxOfEq] at h
    cases hrest : lastIdxOfEq rest with
    | some q => rw [hrest] at h; exact absurd h (by simp)
    | none =>
      rw [hrest] at h
      by_cases hc : c = '='
      · rw [if_pos hc] at h; exact absurd h (by simp)
      · rw [if_neg hc] at h
        rcases List.mem_cons.mp hd with rfl | hd'
        · exact hc
        · exact ih hrest d hd'

theorem lastIdxOfEq_last : ∀ {s : List Char} {p : Nat},
    lastIdxOfEq s = some p → ∀ c ∈ s.drop (p + 1), c ≠ '=' := by
  intro s
  induction s with
  | nil => intro p h; simp [lastIdxOfEq] at h
  | cons c rest ih =>
    intro p h d hd
    rw [lastIdxOfEq] at h
    cases hrest : lastIdxOfEq rest with
    | some q =>
      rw [hrest] at h
      injection h with h
      subst h
      exact ih hrest d (by simpa using hd)
    | none =>
      rw [hrest] at h
      by_cases hc : c = '='
      · rw [if_pos hc] at h
        injection h with h
        subst h
        exact lastIdxOfEq_none hrest d (by simpa using hd)
      · rw [if_neg hc] at h
        exact absurd h (by simp)

theorem lastIdxOfEq_reconstruct {s : List Char} {p : Nat}
    (h : lastIdxOfEq s = some p) :
    s.take p ++ '=' :: s.drop (p + 1) = s := by
  rcases List.getElem?_eq_some_iff.mp (lastIdxOfEq_get h) with ⟨hlt, hget⟩
  rw [← hget, ← List.drop_eq_getElem_cons hlt, List.take_append_drop]

theorem propTryAt_sound {s : List Char} {i : Nat} {n v : List Char}
    (h : propTryAt s i = some (n, v)) :
    s.drop i = n ++ '=' :: v ∧ n ≠ [] ∧ (∀ c ∈ v, c ≠ '=') ∧
    (∀ c ∈ s.drop i, isLineTerm c = false) ∧ s[i]? ≠ some '#' := by
  rw [propTryAt] at h
  by_cases hterm : (s.drop i).any isLineTerm
  · rw [if_pos hterm] at h; exact absurd h (by simp)
  · rw [if_neg hterm] at h
    by_cases hhash : s[i]? = some '#'
    · rw [if_pos hhash] at h; exact absurd h (by simp)
    · rw [if_neg hhash] at h
      cases hlast : lastIdxOfEq (s.drop (i + 1)) with
      | none => rw [hlast] at h; exact absurd h (by simp)
      | some k =>
        rw [hlast] at h
        injection h with h
        injection h with hn hv
        -- the tail after the = position, in terms of t := s.drop (i + 1)
        have hv' : v = (s.drop (i + 1)).drop (k + 1) := by
          have harith : i + 1 + k + 1 = i + 1 + (k + 1) := by omega
          rw [← hv, harith, List.drop_drop]
        -- the suffix from i + 1 is nonempty, so i < s.length
        have hklt : k < (s.drop (i + 1)).length :=
          (List.getElem?_eq_some_iff.mp (lastIdxOfEq_get hlast)).1
        have hi : i < s.length := by
          have := hklt
          rw [List.length_drop] at this
          omega
        have hdropi : s.drop i = s[i] :: s.drop (i + 1) :=
          List.drop_eq_getElem_cons hi
        have hn' : n = s[i] :: (s.drop (i + 1)).take k := by
          rw [← hn, List.drop_take]
          have h1 : i + 1 + k - i = k + 1 := by omega
          rw [h1, hdropi, List.take_succ_cons]
        refine ⟨?_, ?_, ?_, ?_, hhash⟩
        · rw [hdropi, hn', hv', List.cons_append]
          exact congrArg (s[i] :: ·) (lastIdxOfEq_reconstruct hlast).symm
        · rw [hn']
          exact List.cons_ne_nil _ _
        · rw [hv']
          exact lastIdxOfEq_last hlast
        · exact fun c hc => by
            have := List.any_eq_false.mp (Bool.of_not_eq_true hterm) c hc
            simpa using this

theorem propTry_exists {s : List Char} {r : List Char × List Char} :
    ∀ {i : Nat}, propTry s i = some r → ∃ j, j ≤ i ∧ propTryAt s j = some r := by
  intro i
  induction i with
  | zero => intro h; exact ⟨0, le_refl 0, h⟩
  | succ i ih =>
    intro h
    rw [propTry] at h
    cases hat : propTryAt s (i + 1) with
    | some r' =>
      rw [hat] at h
      injection h with h
      subst h
      exact ⟨i + 1, le_refl _, hat⟩
    | none =>
      rw [hat] at h
      rcases ih h with ⟨j, hj, hjat⟩
      exact ⟨j, Nat.le_succ_of_le hj, hjat⟩

theorem wsCount_take : ∀ {s : List Char} {j : Nat},
    j ≤ wsCount s → ∀ c ∈ s.take j, isJsWs c = true := by
  intro s
  induction s with
  | nil => intro j _ c hc; simp at hc
  | cons x rest ih =>
    intro j hj c hc
    cases j with
    | zero => simp at hc
    | succ j =>
      rw [wsCount] at hj
      by_cases hx : isJsWs x
      · rw [if_pos hx] at hj
        rw [List.take_succ_cons] at hc
        rcases List.mem_cons.mp hc with rfl | hc'
        · exact hx
        · exact ih (Nat.le_of_succ_le_succ hj) c hc'
      · rw [if_neg hx] at hj
        omega

/-- Shared shape lemma for the property pattern: a successful match
splits the line as leading whitespace, the name, the last `=`, and a
value free of `=`. -/
theorem propertyMatch_split {l n v : List Char}
    (h : propertyMatch l = some (n, v)) :
    ∃ w, l = w ++ n ++ '=' :: v ∧ (∀ c ∈ w, isJsWs c = true) ∧
      n ≠ [] ∧ ∀ c ∈ v, c ≠ '=' := by
  rcases propTry_exists h with ⟨j, hj, hat⟩
  rcases propTryAt_sound hat with ⟨hsplit, hn, hv, _, _⟩
  refine ⟨l.take j, ?_, wsCount_take hj, hn, hv⟩
  rw [List.append_assoc, ← hsplit, List.take_append_drop]

/-- Helper for `map` over a list where the function is the identity on
every member. -/
theorem map_id_of_mem {α : Type} {f : α → α} :
    ∀ {l : List α}, (∀ x ∈ l, f x = x) → l.map f = l := by
  intro l
  induction l with
  | nil => intro _; rfl
  | cons x xs ih =>
    intro h
    rw [List.map_cons, h x (List.mem_cons_self x xs),
      ih fun y hy => h y (List.mem_cons_of_mem x hy)]

theorem setProperties_nil : ∀ (data : List PropertyData),
    setProperties [] data = data := by
  intro data
  rw [setProperties]
  apply map_id_of_mem
  intro x _
  cases x <;> simp [List.find?_nil]

/-- Per-line round-trip: a blank line, a comment line, or a key=value
line starting with a non-whitespace character serialises back to itself,
and contains no line terminator. -/
theorem serializeLine_loadLine {l : List Char}
    (h : l = [] ∨ commentTest l = true ∨
      (propertyMatch l ≠ none ∧ ∀ c ∈ l.take 1, isJsWs c = false)) :
    serializeLine (loadLine l) = l ∧ ∀ c ∈ l, isLineTerm c = false := by
  rcases h with rfl | hc | ⟨hm, hh⟩
  · exact ⟨rfl, by simp⟩
  · constructor
    · rw [loadLine, if_pos hc, serializeLine]
    · cases l with
      | nil => simp [commentTest] at hc
      | cons x rest =>
        rw [commentTest] at hc
        simp only [Bool.and_eq_true, decide_eq_true_eq] at hc
        intro c hcmem
        rcases List.mem_cons.mp hcmem with rfl | hc'
        · rw [hc.1.1]; rfl
        · simpa using List.all_eq_true.mp hc.2 c hc'
  · cases hmv : propertyMatch l with
    | none => exact absurd hmv hm
    | some nv =>
      obtain ⟨n, v⟩ := nv
      -- the first character is not whitespace, so the backtracking search
      -- starts (and ends) at position 0
      have hws : wsCount l = 0 := by
        cases l with
        | nil => rfl
        | cons x rest => simp [wsCount, hh x (by simp)]
      have hat : propTryAt l 0 = some (n, v) := by
        unfold propertyMatch at hmv
        rw [hws] at hmv
        exact hmv
      rcases propTryAt_sound hat with ⟨hsplit, _, _, hterm, hhash⟩
      rw [List.drop_zero] at hsplit hterm
      have hcomment : commentTest l = false := by
        cases l with
        | nil => rfl
        | cons x rest =>
          rw [commentTest]
          have : x ≠ '#' := by
            intro hx
            exact hhash (by simp [hx])
          simp [this]
      constructor
      · rw [loadLine, if_neg (by simp [hcomment]), hmv, serializeLine, ← hsplit]
      · exact hterm

/-- Every line produced by splitting on `'\n'` is `'\n'`-free, and the
written file is the intercalation of the serialised lines; membership in
an intercalation comes from a line or from the separator. -/
theorem mem_intersperse {l sep : List Char} :
    ∀ {ls : List (List Char)}, l ∈ List.intersperse sep ls → l = sep ∨ l ∈ ls := by
  intro ls
  induction ls with
  | nil => intro h; simp at h
  | cons x xs ih =>
    intro h
    cases xs with
    | nil => simp at h; simp [h]
    | cons y t =>
      rw [List.intersperse_cons_cons] at h
      rcases List.mem_cons.mp h with rfl | h'
      · right; exact List.mem_cons_self _ _
      · rcases List.mem_cons.mp h' with rfl | h''
        · left; rfl
        · rcases ih h'' with rfl | hmem
          · left; rfl
          · right; exact List.mem_cons_of_mem _ hmem

theorem mem_intercalate_nl {c : Char} {ls : List (List Char)}
    (h : c ∈ List.intercalate ['\n'] ls) : c = '\n' ∨ ∃ l ∈ ls, c ∈ l := by
  rw [List.intercalate] at h
  rcases List.mem_flatten.mp h with ⟨l, hl, hc⟩
  rcases mem_intersperse hl with rfl | hmem
  · left; simpa using hc
  · right; exact ⟨l, hmem, hc⟩

theorem normalizeNewlines_eq_self : ∀ {s : List Char},
    (∀ c ∈ s, c ≠ '\r') → normalizeNewlines s = s := by
  intro s
  induction s using normalizeNewlines.induct with
  | case1 => intro _; rfl
  | case2 c => intro _; rfl
  | case3 c d rest hcond ih =>
    intro h
    exact absurd hcond.1 (h c (List.mem_cons_self _ _))
  | case4 c d rest hcond ih =>
    intro h
    rw [normalizeNewlines, if_neg hcond]
    rw [ih fun x hx => h x (List.mem_cons_of_mem c hx)]

/-!
### Claim theorems: PropertiesStore
-/

/-- C6 counterexample: the line `"a=b=c"` is parsed with name `"a=b"`
and value `"c"` (the greedy `(.+)` splits at the last `=`), not with
name `"a"` and value `"b=c"` as the claim states. -/
theorem propertyPattern_counterexample :
    loadLine "a=b=c".data = PropertyData.prop "a=b".data "c".data ∧
    loadLine "a=b=c".data ≠ PropertyData.prop "a".data "b=c".data := by
  decide

/-- C6 (amended): a line accepted by the property pattern splits as
leading whitespace, a non-empty name, the **last** `=` of the line, and
a value containing no `=`. -/
theorem propertyPattern_lastSplit (l n v : List Char)
    (h : propertyMatch l = some (n, v)) :
    ∃ w, l = w ++ n ++ '=' :: v ∧ (∀ c ∈ w, isJsWs c = true) ∧
      n ≠ [] ∧ ∀ c ∈ v, c ≠ '=' :=
  propertyMatch_split h

/-- Witness for C6 on the claim's own example line `"a=b=c"`. -/
theorem propertyPattern_lastSplit_witness :
    propertyMatch "a=b=c".data = some ("a=b".data, "c".data) ∧
    (∃ w, "a=b=c".data = w ++ "a=b".data ++ '=' :: "c".data ∧
      (∀ c ∈ w, isJsWs c = true) ∧ "a=b".data ≠ [] ∧ ∀ c ∈ "c".data, c ≠ '=') :=
  ⟨by decide, propertyPattern_lastSplit "a=b=c".data "a=b".data "c".data (by decide)⟩

/-- C5 counterexample: `" a=b"` is a key=value line for the loader, yet
load, `setProperties([])` and rewrite produce `"a=b"` — the leading
whitespace is lost, so the rewritten file is not byte-identical. -/
theorem properties_roundtrip_counterexample :
    loadProperties " a=b".data = [PropertyData.prop "a".data "b".data] ∧
    writeContent (setProperties [] (loadProperties " a=b".data)) ≠
      normalizeNewlines " a=b".data := by
  decide

/-- C5 (amended): for a file whose (normalised) lines are blank lines,
comment lines, or key=value lines starting with a non-whitespace
character, loading then `setProperties([])` rewrites the file
byte-identically (modulo the `\r\n → \n` normalisation the loader
itself applies), and reloading the written file reproduces the
in-memory line sequence. -/
theorem properties_roundtrip (content : List Char)
    (h : ∀ l ∈ (normalizeNewlines content).splitOn '\n',
      l = [] ∨ commentTest l = true ∨
        (propertyMatch l ≠ none ∧ ∀ c ∈ l.take 1, isJsWs c = false)) :
    writeContent (setProperties [] (loadProperties content)) =
      normalizeNewlines content ∧
    loadProperties (writeContent (setProperties [] (loadProperties content))) =
      setProperties [] (loadProperties content) := by
  have hline : ∀ l ∈ (normalizeNewlines content).splitOn '\n',
      serializeLine (loadLine l) = l ∧ ∀ c ∈ l, isLineTerm c = false :=
    fun l hl => serializeLine_loadLine (h l hl)
  have hw : writeContent (loadProperties content) = normalizeNewlines content := by
    unfold writeContent loadProperties
    rw [List.map_map]
    simp only [Function.comp_def]
    rw [map_id_of_mem fun l hl => (hline l hl).1]
    exact List.intercalate_splitOn (normalizeNewlines content) '\n'
  have hnoCR : ∀ c ∈ normalizeNewlines content, c ≠ '\r' := by
    intro c hc hceq
    rw [← List.intercalate_splitOn (normalizeNewlines content) '\n'] at hc
    rcases mem_intercalate_nl hc with heq | ⟨l, hl, hcl⟩
    · rw [hceq] at heq
      exact absurd heq (by decide)
    · have hft := (hline l hl).2 c hcl
      rw [hceq] at hft
      simp [isLineTerm] at hft
  refine ⟨?_, ?_⟩
  · rw [setProperties_nil, hw]
  · rw [setProperties_nil, hw]
    unfold loadProperties
    rw [normalizeNewlines_eq_self hnoCR]

/-- Witness for C5 on a mixed file (comment, key=value pairs, a blank
line, and a `\r\n` line ending). -/
theorem properties_roundtrip_witness :
    writeContent (setProperties [] (loadProperties "#c\r\na=b\n\nx=y".data)) =
      normalizeNewlines "#c\r\na=b\n\nx=y".data ∧
    loadProperties (writeContent (setProperties [] (loadProperties "#c\r\na=b\n\nx=y".data))) =
      setProperties [] (loadProperties "#c\r\na=b\n\nx=y".data) :=
  properties_roundtrip "#c\r\na=b\n\nx=y".data (by decide)

/-- C7: `setProperties` keeps the number of lines and the variant and
name of every line; only the value of a key=value line whose name
matches an input pair is replaced (by the first matching pair's value),
and unmatched input pairs add nothing. -/
theorem setProperties_frame (ps : List IProperty) (data : List PropertyData) :
    (setProperties ps data).length = data.length ∧
    ∀ i : Nat, (setProperties ps data)[i]? = (data[i]?).map fun line =>
      match line with
      | .null => PropertyData.null
      | .str s => .str s
      | .prop n v =>
        .prop n (((ps.find? fun p => p.name == n).map IProperty.value).getD v) := by
  constructor
  · rw [setProperties]
    exact List.length_map _ _
  · intro i
    rw [setProperties, List.getElem?_map]
    cases hdi : data[i]? with
    | none => rfl
    | some line =>
      simp only [Option.map_some']
      congr 1
      cases line with
      | null => rfl
      | str s => rfl
      | prop n v =>
        cases hf : ps.find? fun p => p.name == n with
        | none => simp [hf]
        | some q =>
          have hq : q.name = n := by simpa using List.find?_some hf
          simp [hf, hq]

end MCServer
